import Mathlib

/-!
Verification of the `texter` incremental text buffer (crate `airblast-dev/texter`).

Shallow embedding of the core data structures and operations:

* A document's text (`String` in Rust, always valid UTF-8) is modelled as a
  `List Nat` of Unicode codepoints.  All offsets the crate manipulates are
  UTF-8 byte offsets; these are recovered from the codepoint list through
  `utf8Len` prefix sums.  This is faithful because every splice the crate
  performs happens on `char` boundaries (enforced by `&str` indexing and the
  assertions in `fast_replace_range`), and because the bytes `\r` (13) and
  `\n` (10) only ever occur as single-byte codepoints in valid UTF-8, so the
  byte-level line scanner is exactly a codepoint-level scanner that reports
  byte offsets.
* The EOL index (`EolIndexes`, src/core/eol_indexes.rs) is a `List Nat`.
* Fallible paths are modelled with `Except`.  The source signals some
  failures as Rust panics (`char_oob_ex`, `between_code_points` in
  src/core/encodings.rs) rather than returned errors; both are modelled as
  `Except.error` values with distinct constructors so theorems can tell the
  two apart.
-/

namespace Texter

/-- UTF-8 encoded length in bytes of one codepoint (Rust `char::len_utf8`). -/
def utf8Len (c : Nat) : Nat :=
  if c < 0x80 then 1 else if c < 0x800 then 2 else if c < 0x10000 then 3 else 4

/-- UTF-16 length in code units of one codepoint (Rust `char::len_utf16`). -/
def utf16Len (c : Nat) : Nat :=
  if c < 0x10000 then 1 else 2

/-- Total UTF-8 byte length of a codepoint list (Rust `str::len`). -/
def byteLen : List Nat → Nat
  | [] => 0
  | c :: r => utf8Len c + byteLen r

/-- Total UTF-16 unit count of a codepoint list. -/
def utf16Units : List Nat → Nat
  | [] => 0
  | c :: r => utf16Len c + utf16Units r

/-- Drop the codepoints covering the first `b` bytes (slicing `s[b..]`;
in the source `b` is always a char boundary, where this is exact). -/
def dropBytes : List Nat → Nat → List Nat
  | l, 0 => l
  | [], _ => []
  | c :: r, b => dropBytes r (b - utf8Len c)

/-- Take the codepoints covering the first `b` bytes (slicing `s[..b]`;
in the source `b` is always a char boundary, where this is exact). -/
def takeBytes : List Nat → Nat → List Nat
  | _, 0 => []
  | [], _ => []
  | c :: r, b => if utf8Len c ≤ b then c :: takeBytes r (b - utf8Len c) else []

/-- Byte slice `s[a..b]` of a codepoint list. -/
def sliceBytes (l : List Nat) (a b : Nat) : List Nat :=
  takeBytes (dropBytes l a) (b - a)

/-- Rust `str::is_char_boundary`: `b` is 0, the total length, or the start
of some codepoint. -/
def isBoundary : List Nat → Nat → Bool
  | [], b => b == 0
  | c :: r, b => if b = 0 then true else if utf8Len c ≤ b then isBoundary r (b - utf8Len c) else false

@[simp] theorem utf8Len_pos (c : Nat) : 0 < utf8Len c := by
  unfold utf8Len
  split <;> [simp; split <;> [simp; split <;> simp]]

/-! ## 4.A Line scanner (`FastEOL`, src/core/lines.rs)

The iterator pulls byte positions of `\r`/`\n` from a `memchr2` iterator;
on a `\r` whose next byte is `\n` it additionally consumes that `\n` hit and
emits the `\n` position.  (The struct's `r : Option<usize>` field is never
set to `Some` anywhere in this revision — the swap branch guarded on it is
dead code — so it is not part of the model.)  We model the `memchr2` stage
as `eolHits` (positions and which byte was hit, in order) and the `next`
logic as `consumeHits`. -/

/-- Byte positions of every `\r` (13) or `\n` (10) codepoint, with the
codepoint, starting at byte offset `p` (the `memchr2_iter` stage). -/
def eolHits : List Nat → Nat → List (Nat × Nat)
  | [], _ => []
  | c :: r, p =>
    if c = 13 ∨ c = 10 then (p, c) :: eolHits r (p + utf8Len c)
    else eolHits r (p + utf8Len c)

/-- The `<FastEOL as Iterator>::next` logic, run to exhaustion over the hit
list: a `\r` hit whose immediately following byte is a `\n` hit emits the
`\n` index and skips that hit; any other hit emits its own index.  (A final
hit emits its own index whether it is `\r` or `\n`, hence the merged
singleton case.) -/
def consumeHits : List (Nat × Nat) → List Nat
  | [] => []
  | [(n, _)] => [n]
  | (n, c) :: (m, c2) :: rest2 =>
    if c = 13 then
      if m = n + 1 ∧ c2 = 10 then (n + 1) :: consumeHits rest2
      else n :: consumeHits ((m, c2) :: rest2)
    else n :: consumeHits ((m, c2) :: rest2)

/-- `FastEOL::new(s).collect()`: all EOL byte offsets of `s`. -/
def fastEOL (l : List Nat) : List Nat :=
  consumeHits (eolHits l 0)

/-- The specification's scanning rules (spec §4.A), written directly:
`\r\n` is one terminator emitting the `\n` index; a lone `\r` emits its own
index; a `\n` emits its own index; consecutive terminators each emit. -/
def eolScan : List Nat → Nat → List Nat
  | 13 :: 10 :: r, p => (p + 1) :: eolScan r (p + 2)
  | 13 :: r, p => p :: eolScan r (p + 1)
  | 10 :: r, p => p :: eolScan r (p + 1)
  | c :: r, p => eolScan r (p + utf8Len c)
  | [], _ => []

theorem eolHits_ge : ∀ (l : List Nat) (p : Nat), ∀ x ∈ eolHits l p, p ≤ x.1 := by
  intro l
  induction l with
  | nil => intro p x hx; simp [eolHits] at hx
  | cons c r ih =>
    intro p x hx
    by_cases hc : c = 13 ∨ c = 10
    · simp only [eolHits, if_pos hc, List.mem_cons] at hx
      rcases hx with hx | hx
      · simp [hx]
      · exact le_trans (Nat.le_add_right p _) (ih _ x hx)
    · simp only [eolHits, if_neg hc] at hx
      exact le_trans (Nat.le_add_right p _) (ih _ x hx)

theorem utf8Len_cr : utf8Len 13 = 1 := by decide

theorem utf8Len_lf : utf8Len 10 = 1 := by decide

theorem eolScan_nil (p : Nat) : eolScan [] p = [] := rfl

theorem eolScan_crlf (r : List Nat) (p : Nat) :
    eolScan (13 :: 10 :: r) p = (p + 1) :: eolScan r (p + 2) := rfl

theorem eolScan_cr_nil (p : Nat) : eolScan [13] p = [p] := rfl

theorem eolScan_lf (r : List Nat) (p : Nat) :
    eolScan (10 :: r) p = p :: eolScan r (p + 1) := rfl

theorem eolScan_cr_cons (c : Nat) (r : List Nat) (p : Nat) (h : c ≠ 10) :
    eolScan (13 :: c :: r) p = p :: eolScan (c :: r) (p + 1) := by
  rw [eolScan.eq_def]
  split <;> simp_all

theorem eolScan_other (c : Nat) (r : List Nat) (p : Nat) (h13 : c ≠ 13) (h10 : c ≠ 10) :
    eolScan (c :: r) p = eolScan r (p + utf8Len c) := by
  rw [eolScan.eq_def]
  split <;> simp_all

theorem consumeHits_eolHits : ∀ (l : List Nat) (p : Nat),
    consumeHits (eolHits l p) = eolScan l p := by
  intro l p
  induction l, p using eolScan.induct with
  | case1 r p ih =>
    simp only [eolHits, utf8Len_cr, utf8Len_lf, if_pos (Or.inl rfl), if_pos (Or.inr rfl)]
    have h2 : p + 1 + 1 = p + 2 := rfl
    rw [h2, eolScan_crlf, ← ih]
    cases hh : eolHits r (p + 2) with
    | nil => simp [consumeHits]
    | cons x rest => simp [consumeHits]
  | case2 r p hne ih =>
    match r with
    | [] =>
      simp only [eolHits, if_pos (Or.inl rfl), eolScan_cr_nil]
      rfl
    | c2 :: r2 =>
      have hc2 : c2 ≠ 10 := fun h => hne r2 (by rw [h])
      rw [eolScan_cr_cons c2 r2 p hc2, ← ih]
      by_cases h13 : c2 = 13
      · subst h13
        simp only [eolHits, utf8Len_cr, if_pos (Or.inl rfl)]
        cases hh : eolHits r2 (p + 1 + 1) with
        | nil => simp [consumeHits]
        | cons x rest => simp [consumeHits]
      · have hcr : ¬(c2 = 13 ∨ c2 = 10) := by simp [h13, hc2]
        simp only [eolHits, utf8Len_cr, if_pos (Or.inl rfl), if_neg hcr]
        cases hh : eolHits r2 (p + 1 + utf8Len c2) with
        | nil => simp [consumeHits]
        | cons x rest =>
          obtain ⟨m, cx⟩ := x
          have hx : p + 1 + utf8Len c2 ≤ m := by
            have := eolHits_ge r2 (p + 1 + utf8Len c2) (m, cx)
              (by rw [hh]; exact List.mem_cons_self _ rest)
            simpa using this
          have hmne : ¬(m = p + 1 ∧ cx = 10) := by
            have := utf8Len_pos c2
            omega
          simp only [consumeHits, if_pos rfl, if_neg hmne]
          simp
  | case3 r p ih =>
    simp only [eolHits, if_pos (Or.inr rfl), utf8Len_lf, eolScan_lf, ← ih]
    cases hh : eolHits r (p + 1) with
    | nil => simp [consumeHits]
    | cons x rest =>
      obtain ⟨m, cx⟩ := x
      simp [consumeHits]
  | case4 c r p hcrlf h13 h10 ih =>
    have hne2 : ¬(c = 13 ∨ c = 10) := by
      simp only [not_or]
      exact ⟨h13, h10⟩
    simp only [eolHits, if_neg hne2]
    rw [ih, eolScan_other c r p h13 h10]
  | case5 p => simp [eolHits, consumeHits, eolScan_nil]

theorem eolScan_bound : ∀ (l : List Nat) (p : Nat), ∀ x ∈ eolScan l p, p ≤ x := by
  intro l p
  induction l, p using eolScan.induct with
  | case1 r p ih =>
    intro x hx
    rw [eolScan_crlf] at hx
    rcases List.mem_cons.mp hx with h | h
    · omega
    · have := ih x h; omega
  | case2 r p hne ih =>
    intro x hx
    match r with
    | [] =>
      rw [eolScan_cr_nil] at hx
      simp at hx
      omega
    | c2 :: r2 =>
      have hc2 : c2 ≠ 10 := fun h => hne r2 (by rw [h])
      rw [eolScan_cr_cons c2 r2 p hc2] at hx
      rcases List.mem_cons.mp hx with h | h
      · omega
      · have := ih x h; omega
  | case3 r p ih =>
    intro x hx
    rw [eolScan_lf] at hx
    rcases List.mem_cons.mp hx with h | h
    · omega
    · have := ih x h; omega
  | case4 c r p hcrlf h13 h10 ih =>
    intro x hx
    rw [eolScan_other c r p h13 h10] at hx
    have := ih x hx
    omega
  | case5 p => simp [eolScan_nil]

theorem eolScan_chain : ∀ (l : List Nat) (p : Nat), List.Chain' (· < ·) (eolScan l p) := by
  intro l p
  induction l, p using eolScan.induct with
  | case1 r p ih =>
    rw [eolScan_crlf, List.chain'_cons']
    refine ⟨?_, ih⟩
    intro b hb
    have := eolScan_bound r (p + 2) b (List.mem_of_mem_head? hb)
    omega
  | case2 r p hne ih =>
    match r with
    | [] => rw [eolScan_cr_nil]; simp
    | c2 :: r2 =>
      have hc2 : c2 ≠ 10 := fun h => hne r2 (by rw [h])
      rw [eolScan_cr_cons c2 r2 p hc2, List.chain'_cons']
      refine ⟨?_, ih⟩
      intro b hb
      have := eolScan_bound (c2 :: r2) (p + 1) b (List.mem_of_mem_head? hb)
      omega
  | case3 r p ih =>
    rw [eolScan_lf, List.chain'_cons']
    refine ⟨?_, ih⟩
    intro b hb
    have := eolScan_bound r (p + 1) b (List.mem_of_mem_head? hb)
    omega
  | case4 c r p hcrlf h13 h10 ih =>
    rw [eolScan_other c r p h13 h10]
    exact ih
  | case5 p => simp [eolScan_nil]

/-- C10: for every input string, `FastEOL` yields, in strictly increasing
order, exactly one byte offset per line terminator, as described by the
rules of `eolScan`: for `\r\n` the index of the `\n`, for a lone `\r` the
index of the `\r`, for a lone `\n` the index of the `\n`, with consecutive
terminators each emitting their own offset. -/
theorem fastEOL_spec (l : List Nat) :
    fastEOL l = eolScan l 0 ∧ List.Chain' (· < ·) (fastEOL l) := by
  refine ⟨consumeHits_eolHits l 0, ?_⟩
  rw [fastEOL, consumeHits_eolHits l 0]
  exact eolScan_chain l 0

example :
    fastEOL [13, 13, 13, 10, 49, 50, 51, 13, 52, 53, 54, 55, 56, 13, 10, 57, 49, 48, 10,
      49, 50, 51, 13, 49, 50, 51, 10, 49, 50, 51, 49, 50, 51, 10, 13, 13]
      = [0, 1, 3, 7, 14, 18, 22, 26, 33, 34, 35] := by decide

example : fastEOL [49, 50, 51, 13, 10, 52, 53, 54, 55, 56, 13, 10, 57, 49, 48]
    = [4, 11] := by decide

/-! ## 4.B EOL index (`EolIndexes`, src/core/eol_indexes.rs)

The wrapper struct around `Vec<usize>` is modelled as a bare `List Nat`.
`row_count` is the vector's length (the source panics when it is 0; every
state produced by the constructors and the edit operations keeps it ≥ 1, and
the theorems below never evaluate the operations on an empty index in a
place where the source would panic). -/

/-- `EolIndexes::new`: `vec![0]` extended with the `FastEOL` offsets. -/
def eolNew (l : List Nat) : List Nat := 0 :: fastEOL l

/-- `EolIndexes::row_start`: `self.0.get(row).map(|rs| rs + (row != 0) as usize)`. -/
def rowStart (br : List Nat) (row : Nat) : Option Nat :=
  (br.get? row).map (fun rs => rs + if row = 0 then 0 else 1)

/-- `EolIndexes::is_last_row`: `row_count - 1 == row`. -/
def isLastRow (br : List Nat) (row : Nat) : Bool := br.length - 1 == row

/-- `EolIndexes::last_row_start`: `row_start(row_count - 1).unwrap()` (the
unwrap always succeeds since the vector is nonempty). -/
def lastRowStart (br : List Nat) : Nat := (rowStart br (br.length - 1)).getD 0

/-- `Vec::insert` (`EolIndexes::insert_index`); the source panics when
`i > len`, which no reachable call does. -/
def insertIdxAt (l : List Nat) (i : Nat) (v : Nat) : List Nat :=
  l.take i ++ v :: l.drop i

/-- `EolIndexes::remove_indexes`: drain `start+1..=end` unless `start+1 > end`. -/
def removeIndexes (br : List Nat) (s e : Nat) : List Nat :=
  if s + 1 > e then br else br.take (s + 1) ++ br.drop (e + 1)

/-- `EolIndexes::add_offsets`: add `by` to every offset after row `row`;
early return when `row ≥ row_count`. -/
def addOffsets (br : List Nat) (row amt : Nat) : List Nat :=
  if br.length ≤ row then br
  else br.take (row + 1) ++ (br.drop (row + 1)).map (· + amt)

/-- `EolIndexes::sub_offsets`: subtract `by` from every offset after row
`row` (the usize subtraction never underflows on the call sites the
theorems exercise). -/
def subOffsets (br : List Nat) (row amt : Nat) : List Nat :=
  if br.length ≤ row then br
  else br.take (row + 1) ++ (br.drop (row + 1)).map (· - amt)

/-- `slice::rotate_right` over a whole list (`k ≤ length` at every source
call site). -/
def rotRight (l : List Nat) (k : Nat) : List Nat :=
  l.drop (l.length - k) ++ l.take (l.length - k)

/-- `slice::rotate_left` over a whole list (`k ≤ length` at every source
call site). -/
def rotLeft (l : List Nat) (k : Nat) : List Nat :=
  l.drop k ++ l.take k

/-- `EolIndexes::insert_indexes`: extend with the new items, rotate the
suffix starting at `at` right by the number of new items, and return the
range of the inserted items. -/
def insertIndexes (br : List Nat) (pos : Nat) (items : List Nat) :
    (Nat × Nat) × List Nat :=
  let l' := br ++ items
  let k := l'.length - br.length
  ((pos, pos + k), l'.take pos ++ rotRight (l'.drop pos) k)

/-- Overwrite `l[p .. p + xs.length]` with `xs` (the `iter_mut().zip(..)`
assignment loop; in-bounds at every source call site). -/
def overwriteAt (l : List Nat) (p : Nat) (xs : List Nat) : List Nat :=
  l.take p ++ xs ++ l.drop (p + xs.length)

/-- `EolIndexes::replace_indexes`: overwrite as much of `start+1..=end` as
the replacement covers, append any leftover replacement items and rotate
them into place, or rotate the leftover gap to the tail and truncate.
The source asserts `start ≤ end ∧ end ≤ row_count` and would additionally
panic at the `[start+1..end+1]` slice when `end = row_count`; the theorems
hypothesise `start ≤ end < length`. -/
def replaceIndexes (br : List Nat) (s e : Nat) (items : List Nat) :
    (Nat × Nat) × List Nat :=
  let replacingLen := e - s
  let i := min replacingLen items.length
  let l1 := overwriteAt br (s + 1) (items.take i)
  let rotateStart := if i < replacingLen then e - (replacingLen - i) + 1 else e + 1
  let rest := items.drop i
  let l2 := l1 ++ rest
  let insertCount := rest.length
  if insertCount = 0 then
    let l3 := l2.take (s + 1 + i) ++ rotLeft (l2.drop (s + 1 + i)) (replacingLen - i)
    ((s + 1, s + 1), l3.take (l2.length - (replacingLen - i)))
  else
    ((s + 1, s + 1 + insertCount),
      l2.take rotateStart ++ rotRight (l2.drop rotateStart) insertCount)

theorem rotRight_append (l₁ l₂ : List Nat) :
    rotRight (l₁ ++ l₂) l₂.length = l₂ ++ l₁ := by
  have hlen : (l₁ ++ l₂).length - l₂.length = l₁.length := by
    simp
  rw [rotRight, hlen, List.drop_left, List.take_left]

theorem insertIndexes_spec (br items : List Nat) (pos : Nat) (h : pos ≤ br.length) :
    (insertIndexes br pos items).2 = br.take pos ++ items ++ br.drop pos ∧
      (insertIndexes br pos items).1 = (pos, pos + items.length) := by
  have hk : (br ++ items).length - br.length = items.length := by simp
  constructor
  · show (br ++ items).take pos ++ rotRight ((br ++ items).drop pos) _ = _
    rw [hk, List.take_append_of_le_length h, List.drop_append_of_le_length h,
      rotRight_append, List.append_assoc]
  · show (pos, pos + ((br ++ items).length - br.length)) = _
    rw [hk]

theorem replaceIndexes_spec (br items : List Nat) (s e : Nat)
    (hse : s ≤ e) (he : e < br.length) :
    (replaceIndexes br s e items).2 = br.take (s + 1) ++ items ++ br.drop (e + 1) ∧
      (replaceIndexes br s e items).1 = (s + 1, s + 1 + (items.length - (e - s))) := by
  have hs1 : s + 1 ≤ br.length := by omega
  have hlen1 : (br.take (s + 1)).length = s + 1 := by
    rw [List.length_take]
    omega
  by_cases hc : items.length ≤ e - s
  · -- the replacement fits inside the replaced range: rotate-left + truncate
    have hi : min (e - s) items.length = items.length := by omega
    have hrest : items.drop (min (e - s) items.length) = [] := by
      rw [hi, List.drop_length]
    have htk : items.take (min (e - s) items.length) = items := by
      rw [hi, List.take_length]
    have hfit : s + 1 + items.length ≤ e + 1 := by omega
    have hp : (br.take (s + 1) ++ items).length = s + 1 + items.length := by
      simp [hlen1]
    have hsub : items.length - (e - s) = 0 := by omega
    unfold replaceIndexes overwriteAt
    simp only [hi, List.take_length, List.drop_length, List.length_nil, List.append_nil]
    rw [if_pos trivial]
    refine ⟨?_, by rw [hsub]⟩
    rw [List.take_left' hp, List.drop_left' hp, rotLeft, List.drop_drop]
    have he1 : s + 1 + items.length + (e - s - items.length) = e + 1 := by omega
    rw [he1]
    have hlenall :
        (br.take (s + 1) ++ items ++ br.drop (s + 1 + items.length)).length = br.length := by
      simp [hlen1]
      omega
    rw [hlenall]
    have hgoal :
        br.take (s + 1) ++ items ++
            (br.drop (e + 1) ++ (br.drop (s + 1 + items.length)).take (e - s - items.length))
          = (br.take (s + 1) ++ items ++ br.drop (e + 1)) ++
              (br.drop (s + 1 + items.length)).take (e - s - items.length) := by
      simp [List.append_assoc]
    rw [hgoal, List.take_left']
    simp [hlen1]
    omega
  · -- the replacement overflows the replaced range: append + rotate-right
    have hgt : e - s < items.length := by omega
    have hi : min (e - s) items.length = e - s := by omega
    have hrl : ¬ (e - s < e - s) := by omega
    have hrest0 : ¬ (items.length - (e - s) = 0) := by omega
    have hfill : s + 1 + (e - s) = e + 1 := by omega
    have hp : (br.take (s + 1) ++ items.take (e - s)).length = e + 1 := by
      simp [hlen1, List.length_take]
      omega
    unfold replaceIndexes overwriteAt
    simp only [hi, List.length_take, List.length_drop, if_neg hrl]
    rw [hfill, if_neg hrest0]
    constructor
    · have hre :
          br.take (s + 1) ++ items.take (e - s) ++ br.drop (e + 1) ++ items.drop (e - s)
            = (br.take (s + 1) ++ items.take (e - s)) ++
                (br.drop (e + 1) ++ items.drop (e - s)) := by
        simp [List.append_assoc]
      rw [hre, List.take_left' hp, List.drop_left' hp]
      rw [show items.length - (e - s) = (items.drop (e - s)).length by simp]
      rw [rotRight_append, List.append_assoc, ← List.append_assoc (items.take (e - s)),
        List.take_append_drop]
      simp [List.append_assoc]
    · simp [hi]

example : replaceIndexes [0, 5, 9] 0 1 [3, 7, 8] = ((1, 3), [0, 3, 7, 8, 9]) := by decide

example : replaceIndexes [0, 3, 9, 10, 11, 17, 18, 25, 29, 31] 3 5 [12, 13]
    = ((4, 4), [0, 3, 9, 10, 12, 13, 18, 25, 29, 31]) := by decide

example : insertIndexes [0, 6, 15, 25] 4 [35, 42] = ((4, 6), [0, 6, 15, 25, 35, 42]) := by
  decide

/-- C8 (amended): `insert_indexes(at, iter)` leaves the vector equal to the
naive splice of the items at position `at` and returns the range covering
exactly the inserted items; `replace_indexes(start, end, iter)` leaves the
vector equal to the naive replacement of positions `start+1` through `end`
(inclusive) by the items, growing or shrinking as needed, but returns the
range `start+1 .. start+1 + (k - (end - start))` where `k` is the number of
items — the range of the items appended beyond the overwritten positions —
which is empty whenever `k ≤ end - start` and so does not in general cover
the inserted items. -/
theorem claimC8_theorem (br items : List Nat) (pos s e : Nat)
    (hpos : pos ≤ br.length) (hse : s ≤ e) (he : e < br.length) :
    (insertIndexes br pos items).2 = br.take pos ++ items ++ br.drop pos ∧
      (insertIndexes br pos items).1 = (pos, pos + items.length) ∧
      (replaceIndexes br s e items).2 = br.take (s + 1) ++ items ++ br.drop (e + 1) ∧
      (replaceIndexes br s e items).1 = (s + 1, s + 1 + (items.length - (e - s))) := by
  obtain ⟨h1, h2⟩ := insertIndexes_spec br items pos hpos
  obtain ⟨h3, h4⟩ := replaceIndexes_spec br items s e hse he
  exact ⟨h1, h2, h3, h4⟩

/-- C8 counterexample: replacing rows `(0..2]` of `[0, 5, 9]` by the single
item `3` produces the vector `[0, 3]` (the naive splice) but returns the
empty range `1..1`, whose slice `[]` does not cover the inserted item `3` —
refuting the claim that `replace_indexes` returns the range covering exactly
the inserted items. -/
theorem claimC8_counterexample :
    (replaceIndexes [0, 5, 9] 0 2 [3]).2 = [0, 3] ∧
      (replaceIndexes [0, 5, 9] 0 2 [3]).1 = (1, 1) ∧
      ¬ (((replaceIndexes [0, 5, 9] 0 2 [3]).2.drop 1).take (1 - 1) = [3]) := by
  decide

theorem claimC8_witness :
    (1 ≤ ([0, 5, 9] : List Nat).length ∧ 0 ≤ 1 ∧ 1 < ([0, 5, 9] : List Nat).length) ∧
      ((insertIndexes [0, 5, 9] 1 [4]).2
          = List.take 1 [0, 5, 9] ++ [4] ++ List.drop 1 [0, 5, 9] ∧
        (insertIndexes [0, 5, 9] 1 [4]).1 = (1, 1 + ([4] : List Nat).length) ∧
        (replaceIndexes [0, 5, 9] 0 1 [4]).2
          = List.take (0 + 1) [0, 5, 9] ++ [4] ++ List.drop (1 + 1) [0, 5, 9] ∧
        (replaceIndexes [0, 5, 9] 0 1 [4]).1
          = (0 + 1, 0 + 1 + (([4] : List Nat).length - (1 - 0)))) :=
  ⟨⟨by decide, by decide, by decide⟩,
    claimC8_theorem [0, 5, 9] [4] 1 0 1 (by decide) (by decide) (by decide)⟩

/-! ## The in-place byte splice `fast_replace_range` (src/core/text.rs)

The source sets the string's length to 0, obtains the whole capacity as a
`MaybeUninit` slice (which still holds the old bytes in its first `len`
positions, followed by whatever the extra capacity holds), performs one
`copy_within` of the old tail (memmove semantics) and one
`copy_from_slice` of the replacement, then sets the final length.  We model
the buffer as the old bytes followed by an arbitrary `pad` list standing
for the reserved spare capacity; the theorem shows the visible result is
the naive splice regardless of `pad`'s contents. -/

/-- `copy_from_slice` of `xs` at position `p` (in-bounds at the call sites
the theorems exercise). -/
def writeAt {α : Type} (l : List α) (p : Nat) (xs : List α) : List α :=
  l.take p ++ xs ++ l.drop (p + xs.length)

/-- `slice::copy_within(src..srcEnd, dst)`: memmove semantics, the source
bytes are read before the destination is written. -/
def copyWithin {α : Type} (l : List α) (src srcEnd dst : Nat) : List α :=
  writeAt l dst ((l.drop src).take (srcEnd - src))

/-- `fast_replace_range(text, rs..re, s)` from `Text::replace`: one tail
move plus one replacement copy.  The `(dst, srcEnd, newLen)` triple mirrors
the source's `match range_dif.cmp(&s.len())`. -/
def fastReplaceRange {α : Type} (text pad : List α) (rs re : Nat) (s : List α) : List α :=
  let len := text.length
  let rangeDif := re - rs
  let buf := text ++ pad
  let dst := if rangeDif < s.length then re + (s.length - rangeDif)
    else if s.length < rangeDif then re - (rangeDif - s.length) else re
  let srcEnd := if rangeDif < s.length then len
    else if s.length < rangeDif then len else re
  let newLen := if rangeDif < s.length then len + (s.length - rangeDif)
    else if s.length < rangeDif then len - (rangeDif - s.length) else len
  let buf1 := copyWithin buf re srcEnd dst
  let buf2 := writeAt buf1 rs s
  buf2.take newLen

theorem buf_take_eq {α : Type} (text pad : List α) (rs : Nat) (h : rs ≤ text.length) :
    (text ++ pad).take rs = text.take rs :=
  List.take_append_of_le_length h

theorem buf_tail_eq {α : Type} (text pad : List α) (re : Nat) (h : re ≤ text.length) :
    ((text ++ pad).drop re).take (text.length - re) = text.drop re := by
  rw [List.drop_append_of_le_length h]
  rw [List.take_append_of_le_length (by simp [List.length_drop])]
  rw [List.take_of_length_le (by simp [List.length_drop])]

theorem writeAt_nil {α : Type} (l : List α) (p : Nat) : writeAt l p [] = l := by
  rw [writeAt, List.length_nil, Nat.add_zero, List.append_nil, List.take_append_drop]

theorem fastReplaceRange_spec {α : Type} (text pad s : List α) (rs re : Nat)
    (h1 : rs ≤ re) (h2 : re ≤ text.length) (hpad : s.length - (re - rs) ≤ pad.length) :
    fastReplaceRange text pad rs re s = text.take rs ++ s ++ text.drop re := by
  unfold fastReplaceRange copyWithin
  rcases Nat.lt_trichotomy (re - rs) s.length with hlt | heq | hgt
  · -- grow
    simp only [if_pos hlt]
    set dif := s.length - (re - rs) with hdif
    set tail := ((text ++ pad).drop re).take (text.length - re) with htail
    have htl : tail = text.drop re := buf_tail_eq text pad re h2
    have hbuflen : re + dif ≤ (text ++ pad).length := by
      simp
      omega
    have htakelen : ((text ++ pad).take (re + dif)).length = re + dif := by
      rw [List.length_take]
      omega
    rw [writeAt, htl]
    have hrs : rs + s.length = re + dif := by omega
    rw [writeAt, List.append_assoc ((text ++ pad).take (re + dif))]
    rw [List.take_append_of_le_length (by omega : rs ≤ ((text ++ pad).take (re + dif)).length)]
    rw [List.take_take, min_eq_left (by omega), buf_take_eq text pad rs (by omega)]
    rw [hrs, List.drop_append_of_le_length (le_of_eq htakelen.symm)]
    rw [List.drop_of_length_le (le_of_eq htakelen), List.nil_append]
    have hfin : text.take rs ++ s ++ (text.drop re ++
        (text ++ pad).drop (re + dif + (text.drop re).length))
        = (text.take rs ++ s ++ text.drop re) ++
            (text ++ pad).drop (re + dif + (text.drop re).length) := by
      simp [List.append_assoc]
    rw [hfin, List.take_left']
    have hlrs : (text.take rs).length = rs := by
      rw [List.length_take]
      omega
    simp [hlrs, List.length_drop]
    omega
  · -- same size
    simp only [if_neg (by omega : ¬ re - rs < s.length),
      if_neg (by omega : ¬ s.length < re - rs)]
    rw [Nat.sub_self, List.take_zero, writeAt_nil, writeAt]
    rw [buf_take_eq text pad rs (by omega)]
    have hrs : rs + s.length = re := by omega
    rw [hrs, List.drop_append_of_le_length h2]
    have hfin : text.take rs ++ s ++ (text.drop re ++ pad)
        = (text.take rs ++ s ++ text.drop re) ++ pad := by
      simp [List.append_assoc]
    rw [hfin, List.take_left']
    have hlrs : (text.take rs).length = rs := by
      rw [List.length_take]
      omega
    simp [hlrs, List.length_drop]
    omega
  · -- shrink
    simp only [if_neg (by omega : ¬ re - rs < s.length), if_pos hgt]
    set dif := re - rs - s.length with hdif
    set tail := ((text ++ pad).drop re).take (text.length - re) with htail
    have htl : tail = text.drop re := buf_tail_eq text pad re h2
    have hbuflen : re - dif ≤ (text ++ pad).length := by
      simp
      omega
    have htakelen : ((text ++ pad).take (re - dif)).length = re - dif := by
      rw [List.length_take]
      simp
      omega
    rw [writeAt, htl, writeAt, List.append_assoc ((text ++ pad).take (re - dif))]
    rw [List.take_append_of_le_length (by omega : rs ≤ ((text ++ pad).take (re - dif)).length)]
    rw [List.take_take, min_eq_left (by omega), buf_take_eq text pad rs (by omega)]
    have hrs : rs + s.length = re - dif := by omega
    rw [hrs, List.drop_append_of_le_length (le_of_eq htakelen.symm)]
    rw [List.drop_of_length_le (le_of_eq htakelen), List.nil_append]
    have hfin : text.take rs ++ s ++ (text.drop re ++
        (text ++ pad).drop (re - dif + (text.drop re).length))
        = (text.take rs ++ s ++ text.drop re) ++
            (text ++ pad).drop (re - dif + (text.drop re).length) := by
      simp [List.append_assoc]
    rw [hfin, List.take_left']
    have hlrs : (text.take rs).length = rs := by
      rw [List.length_take]
      omega
    simp [hlrs, List.length_drop]
    omega

/-- C7: for every byte range `rs ≤ re` within the text and every
replacement `s`, the in-place splice `fast_replace_range` — one tail
memmove over the spare-capacity buffer plus one replacement copy — produces
exactly the naive remove-then-insert splice (old text up to `rs`, then `s`,
then old text from `re`), in all three cases (shrink, grow, same-size) and
regardless of the contents of the reserved spare capacity. -/
theorem claimC7_theorem {α : Type} (text pad s : List α) (rs re : Nat)
    (h1 : rs ≤ re) (h2 : re ≤ text.length) (hpad : s.length - (re - rs) ≤ pad.length) :
    fastReplaceRange text pad rs re s = text.take rs ++ s ++ text.drop re :=
  fastReplaceRange_spec text pad s rs re h1 h2 hpad

theorem claimC7_witness :
    ((1 ≤ 3 ∧ 3 ≤ ([7, 8, 9, 4] : List Nat).length ∧
        ([5, 6, 5] : List Nat).length - (3 - 1) ≤ ([0] : List Nat).length) ∧
      fastReplaceRange [7, 8, 9, 4] [0] 1 3 [5, 6, 5]
        = List.take 1 [7, 8, 9, 4] ++ [5, 6, 5] ++ List.drop 3 [7, 8, 9, 4]) :=
  ⟨⟨by decide, by decide, by decide⟩,
    claimC7_theorem [7, 8, 9, 4] [0] [5, 6, 5] 1 3 (by decide) (by decide) (by decide)⟩

example : fastReplaceRange [7, 8, 9, 4] ([] : List Nat) 1 3 [5] = [7, 5, 4] := by decide

example : fastReplaceRange [7, 8, 9, 4] ([0, 0] : List Nat) 1 3 [5, 6, 1, 2]
    = [7, 5, 6, 1, 2, 4] := by decide

/-! ## 4.C Encoding translators (src/core/encodings.rs)

`UTF8`, `UTF16`, `UTF32` are the `exclusive` column→byte functions (the
function stored on `Text` and used by `GridIndex::normalize`).  The source
signals failure by panicking: `char_oob` / `char_oob_ex` for out-of-bounds
columns and `between_code_points` for positions inside a codepoint.  Both
panics are modelled as `Except.error` with a constructor per panic site. -/

/-- The two failure modes of a column translation: the `char_oob` /
`char_oob_ex` panics (an out-of-bounds column) and the
`between_code_points` panic (a column inside a codepoint). -/
inductive EncErr where
  | oobColumn
  | betweenCodePoints
deriving DecidableEq, Repr

instance {ε α : Type} [DecidableEq ε] [DecidableEq α] : DecidableEq (Except ε α) :=
  fun x y =>
    match x, y with
    | .ok a, .ok b =>
      if h : a = b then isTrue (by rw [h]) else isFalse (fun hh => h (by injection hh))
    | .error a, .error b =>
      if h : a = b then isTrue (by rw [h]) else isFalse (fun hh => h (by injection hh))
    | .ok _, .error _ => isFalse (fun hh => Except.noConfusion hh)
    | .error _, .ok _ => isFalse (fun hh => Except.noConfusion hh)

/-- `utf8::exclusive`: validate `nth ≤ s.len()` and that `nth` is a char
boundary, then return `nth` unchanged. -/
def utf8Exclusive (l : List Nat) (nth : Nat) : Except EncErr Nat :=
  if byteLen l < nth then .error .oobColumn
  else if !(isBoundary l nth) then .error .betweenCodePoints
  else .ok nth

/-- The loop of `utf16::exclusive`: `total` is `total_code_points`, `bidx`
the byte index of the current char.  Each iteration first checks
`total > nth` (mid-codepoint), then accumulates and checks for equality;
on exhaustion `total + 1 == nth` is accepted (returning `nth` itself — the
"code point + 1" escape hatch), anything else is out of bounds. -/
def utf16ExGo : List Nat → Nat → Nat → Nat → Except EncErr Nat
  | [], total, _, nth => if total + 1 = nth then .ok nth else .error .oobColumn
  | c :: r, total, bidx, nth =>
    if nth < total then .error .betweenCodePoints
    else if total + utf16Len c = nth then .ok (bidx + utf8Len c)
    else utf16ExGo r (total + utf16Len c) (bidx + utf8Len c) nth

/-- `utf16::exclusive`. -/
def utf16Exclusive (l : List Nat) (nth : Nat) : Except EncErr Nat :=
  if nth = 0 then .ok 0 else utf16ExGo l 0 0 nth

/-- `utf32::exclusive`: `char_indices().inspect(counter += 1).nth(nth)`
yields the byte offset of codepoint `nth` when `nth < count`; otherwise the
iterator is exhausted with `counter = count` and the function accepts only
`counter + 1 == nth`, returning `s.len()` — so `nth = count` itself is
rejected with the out-of-bounds panic. -/
def utf32Exclusive (l : List Nat) (nth : Nat) : Except EncErr Nat :=
  if nth < l.length then .ok (byteLen (l.take nth))
  else if l.length + 1 = nth then .ok (byteLen l)
  else .error .oobColumn

theorem utf16Units_pos (p : List Nat) (h : p ≠ []) : 0 < utf16Units p := by
  cases p with
  | nil => exact absurd rfl h
  | cons c r =>
    show 0 < utf16Len c + utf16Units r
    have : 0 < utf16Len c := by
      rw [utf16Len]
      split <;> simp
    omega

theorem utf16Len_pos (c : Nat) : 0 < utf16Len c := by
  rw [utf16Len]
  split <;> simp

theorem utf16ExGo_stop : ∀ (p : List Nat), p ≠ [] → ∀ (q : List Nat) (total bidx : Nat),
    utf16ExGo (p ++ q) total bidx (total + utf16Units p) = .ok (bidx + byteLen p) := by
  intro p
  induction p with
  | nil => intro h; exact absurd rfl h
  | cons c p' ih =>
    intro _ q total bidx
    by_cases hp' : p' = []
    · subst hp'
      show utf16ExGo (c :: q) total bidx (total + (utf16Len c + utf16Units [])) = _
      have hu0 : utf16Units ([] : List Nat) = 0 := rfl
      rw [utf16ExGo]
      rw [if_neg (by have := utf16Len_pos c; omega)]
      rw [if_pos (by omega)]
      simp [byteLen]
    · show utf16ExGo (c :: (p' ++ q)) total bidx (total + (utf16Len c + utf16Units p')) = _
      rw [utf16ExGo]
      have hpos := utf16Units_pos p' hp'
      rw [if_neg (by have := utf16Len_pos c; omega)]
      rw [if_neg (by omega)]
      have := ih hp' q (total + utf16Len c) (bidx + utf8Len c)
      rw [show total + (utf16Len c + utf16Units p') = total + utf16Len c + utf16Units p' by
        omega]
      rw [this]
      simp [byteLen]
      omega

theorem utf16ExGo_past : ∀ (l : List Nat) (total bidx nth : Nat),
    total + utf16Units l < nth →
    utf16ExGo l total bidx nth
      = (if total + utf16Units l + 1 = nth then .ok nth else .error .oobColumn) := by
  intro l
  induction l with
  | nil =>
    intro total bidx nth h
    simp [utf16ExGo, utf16Units]
  | cons c r ih =>
    intro total bidx nth h
    have hc : 0 < utf16Len c := utf16Len_pos c
    have hu : utf16Units (c :: r) = utf16Len c + utf16Units r := rfl
    have hr : total + utf16Len c + utf16Units r < nth := by omega
    rw [utf16ExGo, if_neg (by omega), if_neg (by omega), ih _ _ _ hr]
    rw [show total + utf16Units (c :: r) + 1 = total + utf16Len c + utf16Units r + 1 by omega]

theorem utf16ExGo_pair : ∀ (p : List Nat) (c : Nat) (q : List Nat) (total bidx : Nat),
    utf16Len c = 2 →
    utf16ExGo (p ++ c :: q) total bidx (total + utf16Units p + 1)
      = (if q = [] then .error .oobColumn else .error .betweenCodePoints) := by
  intro p
  induction p with
  | nil =>
    intro c q total bidx hc
    show utf16ExGo (c :: q) total bidx (total + utf16Units [] + 1) = _
    rw [utf16ExGo]
    rw [if_neg (by simp [utf16Units])]
    rw [if_neg (by simp [utf16Units]; omega)]
    cases q with
    | nil =>
      simp only [utf16ExGo]
      rw [if_neg (by simp [utf16Units] at *; omega)]
      simp
    | cons c2 q2 =>
      rw [utf16ExGo]
      rw [if_pos (by simp [utf16Units]; omega)]
      simp
  | cons c0 p' ih =>
    intro c q total bidx hc
    show utf16ExGo (c0 :: (p' ++ c :: q)) total bidx
        (total + (utf16Len c0 + utf16Units p') + 1) = _
    rw [utf16ExGo]
    rw [if_neg (by omega)]
    rw [if_neg (by have := utf16Units_pos; omega)]
    have := ih c q (total + utf16Len c0) (bidx + utf8Len c0) hc
    rw [show total + (utf16Len c0 + utf16Units p') + 1
        = total + utf16Len c0 + utf16Units p' + 1 by omega]
    exact this

theorem isBoundary_byteLen (l : List Nat) : isBoundary l (byteLen l) = true := by
  induction l with
  | nil => rfl
  | cons c r ih =>
    show isBoundary (c :: r) (utf8Len c + byteLen r) = true
    rw [isBoundary]
    split
    · rfl
    · rw [if_pos (by omega)]
      rw [show utf8Len c + byteLen r - utf8Len c = byteLen r by omega]
      exact ih

theorem isBoundary_zero (l : List Nat) : isBoundary l 0 = true := by
  cases l <;> simp [isBoundary]

/-- C4 (amended): the exclusive column→byte translators behave as follows on
an EOL-stripped line.  UTF-8: input 0 and input `byteLen` succeed returning
the input; `n ≤ byteLen` off a char boundary fails with the
between-code-points panic; `n > byteLen` fails with the out-of-bounds
panic.  UTF-16: input 0 returns 0; the unit count of any nonempty prefix
(including the whole line) returns that prefix's byte length; a mid-pair
position fails with the between-code-points panic when the pair is not the
last codepoint but with the out-of-bounds panic when it is; input
`units + 1` is accepted, returning `units + 1` itself (the "code point + 1"
escape hatch), and only inputs beyond that fail with the out-of-bounds
panic.  UTF-32: input `n < codepoint_count` returns the n-th codepoint's
byte offset, input `codepoint_count` itself fails with the out-of-bounds
panic (in particular input 0 fails on an empty line), and it is input
`codepoint_count + 1` that returns `line.len`. -/
theorem claimC4_theorem :
    (∀ l : List Nat, utf8Exclusive l 0 = .ok 0) ∧
    (∀ l : List Nat, utf16Exclusive l 0 = .ok 0) ∧
    (∀ l : List Nat, l ≠ [] → utf32Exclusive l 0 = .ok 0) ∧
    (utf32Exclusive [] 0 = .error .oobColumn) ∧
    (∀ l : List Nat, utf8Exclusive l (byteLen l) = .ok (byteLen l)) ∧
    (∀ l : List Nat, utf16Exclusive l (utf16Units l) = .ok (byteLen l)) ∧
    (∀ l : List Nat, utf32Exclusive l l.length = .error .oobColumn) ∧
    (∀ l : List Nat, utf32Exclusive l (l.length + 1) = .ok (byteLen l)) ∧
    (∀ (l : List Nat) (n : Nat), n ≤ byteLen l → isBoundary l n = false →
        utf8Exclusive l n = .error .betweenCodePoints) ∧
    (∀ (p : List Nat) (c : Nat) (q : List Nat), utf16Len c = 2 →
        utf16Exclusive (p ++ c :: q) (utf16Units p + 1)
          = (if q = [] then .error .oobColumn else .error .betweenCodePoints)) ∧
    (∀ (l : List Nat) (n : Nat), byteLen l < n → utf8Exclusive l n = .error .oobColumn) ∧
    (∀ (l : List Nat) (n : Nat), utf16Units l + 1 < n →
        utf16Exclusive l n = .error .oobColumn) ∧
    (∀ l : List Nat, utf16Exclusive l (utf16Units l + 1) = .ok (utf16Units l + 1)) ∧
    (∀ (l : List Nat) (n : Nat), l.length + 1 < n → utf32Exclusive l n = .error .oobColumn) ∧
    (∀ (p q : List Nat), p ≠ [] → utf16Exclusive (p ++ q) (utf16Units p) = .ok (byteLen p)) ∧
    (∀ (l : List Nat) (n : Nat), n < l.length → utf32Exclusive l n = .ok (byteLen (l.take n))) := by
  refine ⟨?_, ?_, ?_, ?_, ?_, ?_, ?_, ?_, ?_, ?_, ?_, ?_, ?_, ?_, ?_, ?_⟩
  · intro l
    rw [utf8Exclusive, if_neg (by omega), isBoundary_zero]
    rfl
  · intro l
    rw [utf16Exclusive, if_pos rfl]
  · intro l h
    rw [utf32Exclusive, if_pos (List.length_pos.mpr h)]
    rfl
  · decide
  · intro l
    rw [utf8Exclusive, if_neg (by omega), isBoundary_byteLen]
    rfl
  · intro l
    cases hl : l with
    | nil => decide
    | cons c r =>
      rw [utf16Exclusive, if_neg (by have := utf16Units_pos (c :: r) (by simp); omega)]
      have := utf16ExGo_stop (c :: r) (by simp) [] 0 0
      simpa using this
  · intro l
    rw [utf32Exclusive, if_neg (by omega), if_neg (by omega)]
  · intro l
    rw [utf32Exclusive, if_neg (by omega), if_pos rfl]
  · intro l n h1 h2
    rw [utf8Exclusive, if_neg (by omega), h2]
    rfl
  · intro p c q hc
    rw [utf16Exclusive, if_neg (by omega)]
    have := utf16ExGo_pair p c q 0 0 hc
    simpa using this
  · intro l n h
    rw [utf8Exclusive, if_pos h]
  · intro l n h
    rw [utf16Exclusive, if_neg (by omega)]
    rw [utf16ExGo_past l 0 0 n (by omega), if_neg (by omega)]
  · intro l
    rw [utf16Exclusive, if_neg (by omega)]
    rw [utf16ExGo_past l 0 0 (utf16Units l + 1) (by omega), if_pos (by omega)]
  · intro l n h
    rw [utf32Exclusive, if_neg (by omega), if_neg (by omega)]
  · intro p q hp
    rw [utf16Exclusive, if_neg (by have := utf16Units_pos p hp; omega)]
    have := utf16ExGo_stop p hp q 0 0
    simpa using this
  · intro l n h
    rw [utf32Exclusive, if_pos h]

/-- C4 counterexample: the line `"ab"` contains 2 UTF-16 units, so by the
claim any input greater than 2 must fail with OutOfBoundsColumn; but
`utf16::exclusive("ab", 3)` succeeds, returning 3 (the deliberate
"code point + 1" acceptance documented on the function). -/
theorem claimC4_counterexample :
    utf16Units [97, 98] = 2 ∧ utf16Exclusive [97, 98] 3 = .ok 3 := by
  decide

theorem claimC4_witness :
    utf16Exclusive ([97] ++ 66615 :: [98]) (utf16Units [97] + 1)
        = .error .betweenCodePoints ∧
      utf32Exclusive [97, 66615] 1 = .ok (byteLen (List.take 1 [97, 66615])) := by
  obtain ⟨h1, h2, h3, h4, h5, h6, h7, h8, h9, h10, h11, h12, h13, h14, h15, h16⟩ :=
    claimC4_theorem
  constructor
  · have := h10 [97] 66615 [98] (by decide)
    simpa using this
  · exact h16 [97, 66615] 1 (by decide)

example : utf16Exclusive [97, 66615, 98] 3 = .ok 5 := by decide

example : utf16Exclusive [97, 66615, 98] 2 = .error .betweenCodePoints := by decide

example : utf32Exclusive [] 0 = .error .oobColumn := by decide

example : utf8Exclusive [97, 66615, 98] 2 = .error .betweenCodePoints := by decide

/-! ## 4.D / 4.E The `Text` state and the change applier
(src/core/text.rs, src/change.rs)

`Text` holds the codepoint list, the EOL index, the `old_br_indexes`
snapshot and the column encoding.  Fallible operations return the outcome
*and* the resulting state (`Rust`'s `&mut self` survives an early return
or a panic with whatever mutations already happened).  Observers are the
infallible kind (`()` and the shipped `Updateable` impls); each successful
edit returns the `UpdateContext` it delivered. -/

/-- The column encoding chosen at construction (`UTF8`/`UTF16`/`UTF32`
function pointers; `encoding[0]` — the exclusive translator — is the one
`GridIndex::normalize` calls). -/
inductive Enc where
  | utf8
  | utf16
  | utf32
deriving DecidableEq, Repr

/-- Dispatch of `text.encoding[0]`. -/
def exclusiveFn : Enc → List Nat → Nat → Except EncErr Nat
  | .utf8 => utf8Exclusive
  | .utf16 => utf16Exclusive
  | .utf32 => utf32Exclusive

/-- `GridIndex` (src/change.rs). -/
structure GridIndex where
  row : Nat
  col : Nat
deriving DecidableEq, Repr

/-- The `Text` struct (src/core/text.rs). -/
structure TextSt where
  text : List Nat
  br : List Nat
  oldBr : List Nat
  enc : Enc
deriving DecidableEq, Repr

/-- `Text::new`. -/
def textNew (t : List Nat) : TextSt :=
  { text := t, br := eolNew t, oldBr := [], enc := .utf8 }

/-- `Text::new_utf16`. -/
def textNewUtf16 (t : List Nat) : TextSt :=
  { text := t, br := eolNew t, oldBr := [], enc := .utf16 }

/-- `Text::new_utf32`. -/
def textNewUtf32 (t : List Nat) : TextSt :=
  { text := t, br := eolNew t, oldBr := [], enc := .utf32 }

/-- A failed edit: either the typed `Error::OutOfBoundsRow` (src/error.rs)
or one of the encoding panics. -/
inductive Failure where
  | oobRow (max cur : Nat)
  | enc (e : EncErr)
deriving DecidableEq, Repr

/-- Modelled from the spec: `trim_eol_from_end` is imported by
src/change.rs from a utils module that is absent from src/; §4.D step 3
says "If the slice ends with `\r\n`, `\n`, or `\r`, strip those 1 or 2
bytes". -/
def trimEolFromEnd (l : List Nat) : List Nat :=
  match l.reverse with
  | 10 :: 13 :: r => r.reverse
  | 10 :: r => r.reverse
  | 13 :: r => r.reverse
  | _ => l

/-- `GridIndex::normalize` (src/change.rs): extend the document with a
synthetic newline when `row == row_count` (inserting the *previous
last-row start* as the new EOL offset), slice the row, strip its EOL
bytes unless it is the last row, and translate the column through the
exclusive encoding function.  The `row_start` lookup is infallible in the
source (it panics for rows past the end); the panic and the encoding
panics are both surfaced as `Failure`s, alongside the state as mutated so
far. -/
def normalizeG (g : GridIndex) (st : TextSt) : Except Failure GridIndex × TextSt :=
  let rc := st.br.length
  let st1 := if g.row = rc then
      { st with br := insertIdxAt st.br g.row (lastRowStart st.br),
                text := st.text ++ [10] }
    else st
  let rc1 := if g.row = rc then rc + 1 else rc
  match rowStart st1.br g.row with
  | none => (.error (.oobRow (rc1 - 1) g.row), st1)
  | some rs =>
    let pureLine :=
      if isLastRow st1.br g.row = false ∧ 1 < rc1 then
        trimEolFromEnd (sliceBytes st1.text rs ((rowStart st1.br (g.row + 1)).getD 0))
      else dropBytes st1.text rs
    match exclusiveFn st.enc pureLine g.col with
    | .error e => (.error (.enc e), st1)
    | .ok c => (.ok ⟨g.row, c⟩, st1)

/-- Modelled from the spec: `correct_positions` is imported by
src/core/text.rs from the change module but absent from the change.rs
revision in src/; §4.E step 2 and §9 say "If after normalisation
`start > end`, swap them", with the derived row-major order on
`GridIndex`. -/
def correctPositions (a b : GridIndex) : GridIndex × GridIndex :=
  if b.row < a.row ∨ (b.row = a.row ∧ b.col < a.col) then (b, a) else (a, b)

/-- `Change` (src/change.rs). -/
inductive Change where
  | delete (start fin : GridIndex)
  | insert (s : List Nat) (pos : GridIndex)
  | replace (s : List Nat) (start fin : GridIndex)
  | replaceFull (s : List Nat)
deriving DecidableEq, Repr

/-- `ChangeContext` (src/updateables.rs). -/
inductive ChangeCtx where
  | delete (start fin : GridIndex)
  | insert (insertedBrIndexes : List Nat) (position : GridIndex) (text : List Nat)
  | replace (start fin : GridIndex) (text : List Nat) (insertedBrIndexes : List Nat)
  | replaceFull (text : List Nat)
deriving DecidableEq, Repr

/-- `UpdateContext` (src/updateables.rs): what the observer receives. -/
structure UpdateCtx where
  change : ChangeCtx
  breaklines : List Nat
  oldBreaklines : List Nat
  oldStr : List Nat
deriving DecidableEq, Repr

/-- `Text::update_prep`: clone the current EOL index into `old_br_indexes`. -/
def updatePrep (st : TextSt) : TextSt := { st with oldBr := st.br }

/-- `Text::delete` (src/core/text.rs): prep, normalise both ends, swap if
reversed, compute the byte range, splice the EOL index, deliver the
context, then drain the bytes. -/
def textDelete (start0 fin0 : GridIndex) (st0 : TextSt) :
    Except Failure UpdateCtx × TextSt :=
  let st := updatePrep st0
  match normalizeG start0 st with
  | (.error e, st) => (.error e, st)
  | (.ok start1, st) =>
    match normalizeG fin0 st with
    | (.error e, st) => (.error e, st)
    | (.ok fin1, st) =>
      let se := correctPositions start1 fin1
      let start2 := se.1
      let fin2 := se.2
      let maxRow := st.br.length
      match rowStart st.br start2.row with
      | none => (.error (.oobRow (maxRow - 1) start2.row), st)
      | some rowStartIdx =>
        match rowStart st.br fin2.row with
        | none => (.error (.oobRow (maxRow - 1) fin2.row), st)
        | some rowEndIdx =>
          let startByte := rowStartIdx + start2.col
          let endByte := rowEndIdx + fin2.col
          let brOffset := endByte - startByte
          let br1 := removeIndexes st.br start2.row fin2.row
          let br2 := subOffsets br1 start2.row brOffset
          let ctx : UpdateCtx :=
            { change := .delete start2 fin2, breaklines := br2,
              oldBreaklines := st.oldBr, oldStr := st.text }
          let newText := takeBytes st.text startByte ++ dropBytes st.text endByte
          (.ok ctx, { st with br := br2, text := newText })

/-- `Text::insert` (src/core/text.rs): prep, normalise, scan the inserted
text for EOLs offset by the insertion byte, shift the trailing offsets,
splice the new offsets in at `row + 1`, deliver the context, then insert
the bytes. -/
def textInsert (s : List Nat) (pos0 : GridIndex) (st0 : TextSt) :
    Except Failure UpdateCtx × TextSt :=
  let st := updatePrep st0
  match normalizeG pos0 st with
  | (.error e, st) => (.error e, st)
  | (.ok pos, st) =>
    let rowCount := st.br.length
    match rowStart st.br pos.row with
    | none => (.error (.oobRow (rowCount - 1) pos.row), st)
    | some rowEndIdx =>
      let endByte := rowEndIdx + pos.col
      let brIdx := (fastEOL s).map (· + endByte)
      let br1 := addOffsets st.br pos.row (byteLen s)
      let rbr := insertIndexes br1 (pos.row + 1) brIdx
      let br2 := rbr.2
      let inserted := (br2.drop rbr.1.1).take (rbr.1.2 - rbr.1.1)
      let ctx : UpdateCtx :=
        { change := .insert inserted pos s, breaklines := br2,
          oldBreaklines := st.oldBr, oldStr := st.text }
      let newText := takeBytes st.text endByte ++ s ++ dropBytes st.text endByte
      (.ok ctx, { st with br := br2, text := newText })

/-- `Text::replace` (src/core/text.rs): prep, normalise both ends, swap if
reversed, shift trailing offsets by the signed length delta, replace the
covered EOL offsets with those of the new text, deliver the context, then
splice the bytes (`fast_replace_range`, proven above to equal the naive
splice used here). -/
def textReplace (s : List Nat) (start0 fin0 : GridIndex) (st0 : TextSt) :
    Except Failure UpdateCtx × TextSt :=
  let st := updatePrep st0
  match normalizeG start0 st with
  | (.error e, st) => (.error e, st)
  | (.ok start1, st) =>
    match normalizeG fin0 st with
    | (.error e, st) => (.error e, st)
    | (.ok fin1, st) =>
      let se := correctPositions start1 fin1
      let start2 := se.1
      let fin2 := se.2
      let rowCount := st.br.length
      match rowStart st.br start2.row with
      | none => (.error (.oobRow (rowCount - 1) start2.row), st)
      | some rowStartIdx =>
        match rowStart st.br fin2.row with
        | none => (.error (.oobRow (rowCount - 1) fin2.row), st)
        | some rowEndIdx =>
          let startByte := rowStartIdx + start2.col
          let endByte := rowEndIdx + fin2.col
          let oldLen := endByte - startByte
          let newLen := byteLen s
          let br1 :=
            if oldLen < newLen then addOffsets st.br fin2.row (newLen - oldLen)
            else if newLen < oldLen then subOffsets st.br fin2.row (oldLen - newLen)
            else st.br
          let rbr := replaceIndexes br1 start2.row fin2.row
            ((fastEOL s).map (· + startByte))
          let br2 := rbr.2
          let inserted := (br2.drop rbr.1.1).take (rbr.1.2 - rbr.1.1)
          let ctx : UpdateCtx :=
            { change := .replace start2 fin2 s inserted, breaklines := br2,
              oldBreaklines := st.oldBr, oldStr := st.text }
          let newText := takeBytes st.text startByte ++ s ++ dropBytes st.text endByte
          (.ok ctx, { st with br := br2, text := newText })

/-- `Text::replace_full` (src/core/text.rs): rebuild the EOL index from the
new text, deliver the context (note: no `update_prep` — `old_br_indexes`
still holds whatever the previous edit left there), then replace the text
wholesale. -/
def textReplaceFull (s : List Nat) (st : TextSt) :
    Except Failure UpdateCtx × TextSt :=
  let br := eolNew s
  let ctx : UpdateCtx :=
    { change := .replaceFull s, breaklines := br,
      oldBreaklines := st.oldBr, oldStr := st.text }
  (.ok ctx, { st with br := br, text := s })

/-- `Text::update`: dispatch on the change variant. -/
def textUpdate : Change → TextSt → Except Failure UpdateCtx × TextSt
  | .delete start fin, st => textDelete start fin st
  | .insert s pos, st => textInsert s pos st
  | .replace s start fin, st => textReplace s start fin st
  | .replaceFull s, st => textReplaceFull s st

/-- Convert a Lean string literal to the codepoint-list representation
(used only to state concrete test vectors). -/
def strToCp (s : String) : List Nat := s.data.map Char.toNat

example :
    (textUpdate (.delete ⟨1, 3⟩ ⟨3, 2⟩)
        (textNew (strToCp "Hello, World!\nApples\n Oranges\nPears"))).2.text
      = strToCp "Hello, World!\nAppars" := by decide

example :
    (textUpdate (.delete ⟨1, 3⟩ ⟨3, 2⟩)
        (textNew (strToCp "Hello, World!\nApples\n Oranges\nPears"))).2.br
      = [0, 13] := by decide

example :
    (textUpdate (.insert (strToCp "Hello,\n World!\n") ⟨1, 1⟩)
        (textNew (strToCp "ABC\nDEF"))).2.text
      = strToCp "ABC\nDHello,\n World!\nEF" := by decide

example :
    (textUpdate (.insert (strToCp "Hello,\n World!\n") ⟨1, 1⟩)
        (textNew (strToCp "ABC\nDEF"))).2.br = [0, 3, 11, 19] := by decide

example :
    (textUpdate (.replace (strToCp "What a wonderful world!\nWowzers\nSome Random text")
          ⟨0, 3⟩ ⟨3, 6⟩)
        (textNew (strToCp "Hello, World!\nBye World!\nhahaFunny\nInteresting!"))).2.text
      = strToCp "HelWhat a wonderful world!\nWowzers\nSome Random textsting!" := by decide

example :
    (textUpdate (.replace (strToCp "What a wonderful world!\nWowzers\nSome Random text")
          ⟨0, 3⟩ ⟨3, 6⟩)
        (textNew (strToCp "Hello, World!\nBye World!\nhahaFunny\nInteresting!"))).2.br
      = [0, 26, 34] := by decide

/-- C9: applying `replace_full(t)` to any document yields exactly the
document `Text::new(t)` would produce: the same text bytes and the same
EOL index. -/
theorem claimC9_theorem (st : TextSt) (t : List Nat) :
    (textUpdate (.replaceFull t) st).2.text = (textNew t).text ∧
      (textUpdate (.replaceFull t) st).2.br = (textNew t).br :=
  ⟨rfl, rfl⟩

/-- The "insert past end-of-file" boundary scenario: start from `""`,
insert `"x"` at `(0,0)`, then insert `"y"` at `(1,0)`. -/
def pastEofInsert : Except Failure UpdateCtx × TextSt :=
  textUpdate (.insert [121] ⟨1, 0⟩) (textUpdate (.insert [120] ⟨0, 0⟩) (textNew [])).2

/-- C5: evaluating the boundary scenario at its literal inputs: the first
insert yields text `"x"` with EOL `[0]` as claimed, but the second insert
(row equal to row_count) succeeds with final text `"xy\n"` and EOL index
`[0, 0]` — not the claimed `"x\ny"` with `[0, 1]`.  The normaliser inserts
the *previous last-row start* (0) as the synthetic EOL offset instead of
the byte index of the appended `\n`, so `row_start(1)` resolves to byte 1
and `"y"` lands before the synthetic newline. -/
theorem claimC5_theorem :
    (textUpdate (.insert [120] ⟨0, 0⟩) (textNew [])).2.text = [120] ∧
      (textUpdate (.insert [120] ⟨0, 0⟩) (textNew [])).2.br = [0] ∧
      pastEofInsert.1.isOk = true ∧
      pastEofInsert.2.text = [120, 121, 10] ∧
      pastEofInsert.2.br = [0, 0] ∧
      pastEofInsert.2.text ≠ [120, 10, 121] ∧
      pastEofInsert.2.br ≠ [0, 1] := by
  decide

/-- C1: after the successful edit sequence of the "insert past
end-of-file" scenario the EOL index is `[0, 0]`, while re-scanning the
text `"xy\n"` with `FastEOL` and prepending 0 yields `[0, 2]` — the
invariant fails. -/
theorem claimC1_theorem :
    pastEofInsert.1.isOk = true ∧
      pastEofInsert.2.br ≠ eolNew pastEofInsert.2.text ∧
      pastEofInsert.2.br = [0, 0] ∧
      eolNew pastEofInsert.2.text = [0, 2] := by
  decide

/-- C6: on the UTF-32 document `"ab"` the position `(0, 2)` (column equal
to the codepoint count, i.e. end of line — a valid position per the
spec's §4.C) is rejected: `insert("z", (0,2))` fails with the
out-of-bounds column panic before mutating anything, so the
insert-then-delete round trip cannot even be performed there. -/
theorem claimC6_theorem :
    (textUpdate (.insert [122] ⟨0, 2⟩) (textNewUtf32 [97, 98])).1
        = .error (.enc .oobColumn) ∧
      (textUpdate (.insert [122] ⟨0, 2⟩) (textNewUtf32 [97, 98])).2.text = [97, 98] ∧
      (textUpdate (.insert [122] ⟨0, 2⟩) (textNewUtf32 [97, 98])).2.br = [0] := by
  decide

theorem normalizeG_oldBr (g : GridIndex) (st : TextSt) :
    (normalizeG g st).2.oldBr = st.oldBr := by
  unfold normalizeG
  by_cases h : g.row = st.br.length <;> simp only [if_pos, if_neg, h] <;>
    split <;> try rfl
  all_goals split <;> rfl

theorem normalizeG_state_of_ne (g : GridIndex) (st : TextSt)
    (h : g.row ≠ st.br.length) : (normalizeG g st).2 = st := by
  unfold normalizeG
  simp only [if_neg h]
  split
  · rfl
  · split <;> rfl

theorem normalizeG_text_cases (g : GridIndex) (st : TextSt) :
    (normalizeG g st).2.text = st.text ∨ (normalizeG g st).2.text = st.text ++ [10] := by
  unfold normalizeG
  by_cases h : g.row = st.br.length
  · right
    simp only [if_pos h]
    split
    · rfl
    · split <;> rfl
  · left
    simp only [if_neg h]
    split
    · rfl
    · split <;> rfl

theorem normalizeG_ok_row (g : GridIndex) (st : TextSt) (g' : GridIndex)
    (h : (normalizeG g st).1 = .ok g') : g'.row = g.row := by
  unfold normalizeG at h
  by_cases hr : g.row = st.br.length
  · simp only [if_pos hr] at h
    split at h
    · exact absurd h (by simp)
    · split at h
      · exact absurd h (by simp)
      · injection h with h1
        rw [← h1]
  · simp only [if_neg hr] at h
    split at h
    · exact absurd h (by simp)
    · split at h
      · exact absurd h (by simp)
      · injection h with h1
        rw [← h1]

theorem rowStart_lt_isSome (br : List Nat) (r : Nat) (h : r < br.length) :
    ∃ v, rowStart br r = some v := by
  unfold rowStart
  rw [List.get?_eq_get h]
  exact ⟨_, rfl⟩

theorem correctPositions_cases (a b : GridIndex) :
    correctPositions a b = (a, b) ∨ correctPositions a b = (b, a) := by
  unfold correctPositions
  split
  · exact Or.inr rfl
  · exact Or.inl rfl

theorem textDelete_err_state (a b : GridIndex) (st0 : TextSt) (e : Failure) (st' : TextSt)
    (ha : a.row < st0.br.length) (hb : b.row < st0.br.length)
    (h : textDelete a b st0 = (.error e, st')) :
    st'.text = st0.text ∧ st'.br = st0.br := by
  unfold textDelete at h
  simp only [updatePrep] at h
  split at h
  · rename_i e1 stA heq1
    have hA : stA = { st0 with oldBr := st0.br } := by
      have := normalizeG_state_of_ne a { st0 with oldBr := st0.br } (Nat.ne_of_lt ha)
      rw [heq1] at this
      exact this
    injection h with h1 h2
    rw [← h2, hA]
    exact ⟨rfl, rfl⟩
  · rename_i g1 stA heq1
    have hA : stA = { st0 with oldBr := st0.br } := by
      have := normalizeG_state_of_ne a { st0 with oldBr := st0.br } (Nat.ne_of_lt ha)
      rw [heq1] at this
      exact this
    subst hA
    split at h
    · rename_i e2 stB heq2
      have hB : stB = { st0 with oldBr := st0.br } := by
        have := normalizeG_state_of_ne b { st0 with oldBr := st0.br } (Nat.ne_of_lt hb)
        rw [heq2] at this
        exact this
      injection h with h1 h2
      rw [← h2, hB]
      exact ⟨rfl, rfl⟩
    · rename_i g2 stB heq2
      have hB : stB = { st0 with oldBr := st0.br } := by
        have := normalizeG_state_of_ne b { st0 with oldBr := st0.br } (Nat.ne_of_lt hb)
        rw [heq2] at this
        exact this
      subst hB
      split at h
      · injection h with h1 h2
        rw [← h2]
        exact ⟨rfl, rfl⟩
      · split at h
        · injection h with h1 h2
          rw [← h2]
          exact ⟨rfl, rfl⟩
        · simp at h

theorem textInsert_err_state (s : List Nat) (p : GridIndex) (st0 : TextSt)
    (e : Failure) (st' : TextSt) (hp : p.row < st0.br.length)
    (h : textInsert s p st0 = (.error e, st')) :
    st'.text = st0.text ∧ st'.br = st0.br := by
  unfold textInsert at h
  simp only [updatePrep] at h
  split at h
  · rename_i e1 stA heq1
    have hA : stA = { st0 with oldBr := st0.br } := by
      have := normalizeG_state_of_ne p { st0 with oldBr := st0.br } (Nat.ne_of_lt hp)
      rw [heq1] at this
      exact this
    injection h with h1 h2
    rw [← h2, hA]
    exact ⟨rfl, rfl⟩
  · rename_i g1 stA heq1
    have hA : stA = { st0 with oldBr := st0.br } := by
      have := normalizeG_state_of_ne p { st0 with oldBr := st0.br } (Nat.ne_of_lt hp)
      rw [heq1] at this
      exact this
    subst hA
    split at h
    · injection h with h1 h2
      rw [← h2]
      exact ⟨rfl, rfl⟩
    · simp at h

theorem textReplace_err_state (s : List Nat) (a b : GridIndex) (st0 : TextSt)
    (e : Failure) (st' : TextSt)
    (ha : a.row < st0.br.length) (hb : b.row < st0.br.length)
    (h : textReplace s a b st0 = (.error e, st')) :
    st'.text = st0.text ∧ st'.br = st0.br := by
  unfold textReplace at h
  simp only [updatePrep] at h
  split at h
  · rename_i e1 stA heq1
    have hA : stA = { st0 with oldBr := st0.br } := by
      have := normalizeG_state_of_ne a { st0 with oldBr := st0.br } (Nat.ne_of_lt ha)
      rw [heq1] at this
      exact this
    injection h with h1 h2
    rw [← h2, hA]
    exact ⟨rfl, rfl⟩
  · rename_i g1 stA heq1
    have hA : stA = { st0 with oldBr := st0.br } := by
      have := normalizeG_state_of_ne a { st0 with oldBr := st0.br } (Nat.ne_of_lt ha)
      rw [heq1] at this
      exact this
    subst hA
    split at h
    · rename_i e2 stB heq2
      have hB : stB = { st0 with oldBr := st0.br } := by
        have := normalizeG_state_of_ne b { st0 with oldBr := st0.br } (Nat.ne_of_lt hb)
        rw [heq2] at this
        exact this
      injection h with h1 h2
      rw [← h2, hB]
      exact ⟨rfl, rfl⟩
    · rename_i g2 stB heq2
      have hB : stB = { st0 with oldBr := st0.br } := by
        have := normalizeG_state_of_ne b { st0 with oldBr := st0.br } (Nat.ne_of_lt hb)
        rw [heq2] at this
        exact this
      subst hB
      split at h
      · injection h with h1 h2
        rw [← h2]
        exact ⟨rfl, rfl⟩
      · split at h
        · injection h with h1 h2
          rw [← h2]
          exact ⟨rfl, rfl⟩
        · simp at h

theorem textDelete_ok_ctx (a b : GridIndex) (st0 : TextSt) (ctx : UpdateCtx) (st' : TextSt)
    (h : textDelete a b st0 = (.ok ctx, st')) :
    ctx.breaklines = st'.br ∧ ctx.oldBreaklines = st0.br ∧
      ∃ k, ctx.oldStr = st0.text ++ List.replicate k 10 := by
  unfold textDelete at h
  simp only [updatePrep] at h
  split at h
  · simp at h
  · rename_i g1 stA heq1
    have hAo : stA.oldBr = st0.br := by
      have := normalizeG_oldBr a { st0 with oldBr := st0.br }
      rw [heq1] at this
      exact this
    have hAt : stA.text = st0.text ∨ stA.text = st0.text ++ [10] := by
      have := normalizeG_text_cases a { st0 with oldBr := st0.br }
      rw [heq1] at this
      exact this
    split at h
    · simp at h
    · rename_i g2 stB heq2
      have hBo : stB.oldBr = stA.oldBr := by
        have := normalizeG_oldBr b stA
        rw [heq2] at this
        exact this
      have hBt : stB.text = stA.text ∨ stB.text = stA.text ++ [10] := by
        have := normalizeG_text_cases b stA
        rw [heq2] at this
        exact this
      split at h
      · simp at h
      · split at h
        · simp at h
        · injection h with h1 h2
          have hc := Except.ok.inj h1
          rw [← hc, ← h2]
          refine ⟨rfl, by rw [hBo, hAo], ?_⟩
          show ∃ k, stB.text = st0.text ++ List.replicate k 10
          rcases hBt with hB | hB <;> rcases hAt with hA | hA
          · exact ⟨0, by rw [hB, hA]; simp⟩
          · exact ⟨1, by rw [hB, hA]; simp [List.replicate]⟩
          · exact ⟨1, by rw [hB, hA]; simp [List.replicate]⟩
          · exact ⟨2, by rw [hB, hA]; simp [List.replicate]⟩

theorem textInsert_ok_ctx (s : List Nat) (p : GridIndex) (st0 : TextSt)
    (ctx : UpdateCtx) (st' : TextSt)
    (h : textInsert s p st0 = (.ok ctx, st')) :
    ctx.breaklines = st'.br ∧ ctx.oldBreaklines = st0.br ∧
      ∃ k, ctx.oldStr = st0.text ++ List.replicate k 10 := by
  unfold textInsert at h
  simp only [updatePrep] at h
  split at h
  · simp at h
  · rename_i g1 stA heq1
    have hAo : stA.oldBr = st0.br := by
      have := normalizeG_oldBr p { st0 with oldBr := st0.br }
      rw [heq1] at this
      exact this
    have hAt : stA.text = st0.text ∨ stA.text = st0.text ++ [10] := by
      have := normalizeG_text_cases p { st0 with oldBr := st0.br }
      rw [heq1] at this
      exact this
    split at h
    · simp at h
    · injection h with h1 h2
      have hc := Except.ok.inj h1
      rw [← hc, ← h2]
      refine ⟨rfl, by rw [hAo], ?_⟩
      show ∃ k, stA.text = st0.text ++ List.replicate k 10
      rcases hAt with hA | hA
      · exact ⟨0, by rw [hA]; simp⟩
      · exact ⟨1, by rw [hA]; simp [List.replicate]⟩

theorem textReplace_ok_ctx (s : List Nat) (a b : GridIndex) (st0 : TextSt)
    (ctx : UpdateCtx) (st' : TextSt)
    (h : textReplace s a b st0 = (.ok ctx, st')) :
    ctx.breaklines = st'.br ∧ ctx.oldBreaklines = st0.br ∧
      ∃ k, ctx.oldStr = st0.text ++ List.replicate k 10 := by
  unfold textReplace at h
  simp only [updatePrep] at h
  split at h
  · simp at h
  · rename_i g1 stA heq1
    have hAo : stA.oldBr = st0.br := by
      have := normalizeG_oldBr a { st0 with oldBr := st0.br }
      rw [heq1] at this
      exact this
    have hAt : stA.text = st0.text ∨ stA.text = st0.text ++ [10] := by
      have := normalizeG_text_cases a { st0 with oldBr := st0.br }
      rw [heq1] at this
      exact this
    split at h
    · simp at h
    · rename_i g2 stB heq2
      have hBo : stB.oldBr = stA.oldBr := by
        have := normalizeG_oldBr b stA
        rw [heq2] at this
        exact this
      have hBt : stB.text = stA.text ∨ stB.text = stA.text ++ [10] := by
        have := normalizeG_text_cases b stA
        rw [heq2] at this
        exact this
      split at h
      · simp at h
      · split at h
        · simp at h
        · injection h with h1 h2
          have hc := Except.ok.inj h1
          rw [← hc, ← h2]
          refine ⟨rfl, by rw [hBo, hAo], ?_⟩
          show ∃ k, stB.text = st0.text ++ List.replicate k 10
          rcases hBt with hB | hB <;> rcases hAt with hA | hA
          · exact ⟨0, by rw [hB, hA]; simp⟩
          · exact ⟨1, by rw [hB, hA]; simp [List.replicate]⟩
          · exact ⟨1, by rw [hB, hA]; simp [List.replicate]⟩
          · exact ⟨2, by rw [hB, hA]; simp [List.replicate]⟩

/-- Every row mentioned by the change is strictly below the current row
count (so the normaliser's synthetic-newline branch is not taken). -/
def rowsInBounds : Change → TextSt → Bool
  | .delete a b, st => decide (a.row < st.br.length) && decide (b.row < st.br.length)
  | .insert _ p, st => decide (p.row < st.br.length)
  | .replace _ a b, st => decide (a.row < st.br.length) && decide (b.row < st.br.length)
  | .replaceFull _, _ => true

/-- C2 (amended): for a change whose positions' rows are all strictly below
row_count, a failed `update` (out-of-bounds row, out-of-bounds column or
mid-codepoint column — the latter two being panics of the encoding
functions rather than returned typed errors) leaves the text bytes and the
EOL index exactly as they were.  (Without the row bound this fails: a
position with row equal to row_count makes the normaliser append a
synthetic newline and EOL entry before the column is validated, and that
mutation survives the failure — see the counterexample.) -/
theorem claimC2_theorem (st : TextSt) (ch : Change) (e : Failure)
    (hrows : rowsInBounds ch st = true)
    (herr : (textUpdate ch st).1 = .error e) :
    (textUpdate ch st).2.text = st.text ∧ (textUpdate ch st).2.br = st.br := by
  cases ch with
  | delete a b =>
    simp only [rowsInBounds, Bool.and_eq_true, decide_eq_true_eq] at hrows
    have herr' : (textDelete a b st).1 = .error e := herr
    have h : textDelete a b st = (Except.error e, (textDelete a b st).2) := by
      rw [← herr']
    exact textDelete_err_state a b st e (textDelete a b st).2 hrows.1 hrows.2 h
  | insert s p =>
    simp only [rowsInBounds, decide_eq_true_eq] at hrows
    have herr' : (textInsert s p st).1 = .error e := herr
    have h : textInsert s p st = (Except.error e, (textInsert s p st).2) := by
      rw [← herr']
    exact textInsert_err_state s p st e (textInsert s p st).2 hrows h
  | replace s a b =>
    simp only [rowsInBounds, Bool.and_eq_true, decide_eq_true_eq] at hrows
    have herr' : (textReplace s a b st).1 = .error e := herr
    have h : textReplace s a b st = (Except.error e, (textReplace s a b st).2) := by
      rw [← herr']
    exact textReplace_err_state s a b st e (textReplace s a b st).2 hrows.1 hrows.2 h
  | replaceFull s =>
    exact absurd herr (by simp [textUpdate, textReplaceFull])

/-- C2 counterexample: on the document `"a"`, `delete((1,5), (1,5))` fails
(out-of-bounds column), yet the document is not untouched: the normaliser
already appended a synthetic newline and EOL entry for row 1 == row_count
before validating the column, so the text is `"a\n"` and the EOL index
`[0, 0]` after the failed call. -/
theorem claimC2_counterexample :
    (textUpdate (.delete ⟨1, 5⟩ ⟨1, 5⟩) (textNew [97])).1 = .error (.enc .oobColumn) ∧
      (textUpdate (.delete ⟨1, 5⟩ ⟨1, 5⟩) (textNew [97])).2.text = [97, 10] ∧
      (textNew [97]).text = [97] ∧
      (textUpdate (.delete ⟨1, 5⟩ ⟨1, 5⟩) (textNew [97])).2.br = [0, 0] ∧
      (textNew [97]).br = [0] := by
  decide

theorem claimC2_witness :
    (rowsInBounds (.delete ⟨0, 9⟩ ⟨0, 0⟩) (textNew [97]) = true ∧
        (textUpdate (.delete ⟨0, 9⟩ ⟨0, 0⟩) (textNew [97])).1
          = .error (.enc .oobColumn)) ∧
      ((textUpdate (.delete ⟨0, 9⟩ ⟨0, 0⟩) (textNew [97])).2.text = (textNew [97]).text ∧
        (textUpdate (.delete ⟨0, 9⟩ ⟨0, 0⟩) (textNew [97])).2.br = (textNew [97]).br) :=
  ⟨⟨by decide, by decide⟩,
    claimC2_theorem (textNew [97]) (.delete ⟨0, 9⟩ ⟨0, 0⟩) (.enc .oobColumn)
      (by decide) (by decide)⟩

/-- C3 (amended): for every successful edit, the observer's context carries
`breaklines` equal to the post-edit EOL index; for delete, insert and
replace it carries `old_breaklines` equal to the pre-edit EOL index and
`old_str` equal to the pre-edit text possibly extended by the normaliser's
synthetic newline(s) (when a position's row equalled row_count); for
replace_full — which never calls `update_prep` — `old_breaklines` is the
stale snapshot left by the previous edit (empty if none), not the pre-edit
EOL index, while `old_str` is the pre-edit text. -/
theorem claimC3_theorem (st : TextSt) (ch : Change) (ctx : UpdateCtx)
    (hok : (textUpdate ch st).1 = .ok ctx) :
    ctx.breaklines = (textUpdate ch st).2.br ∧
      ((∃ s, ch = .replaceFull s) → ctx.oldBreaklines = st.oldBr ∧ ctx.oldStr = st.text) ∧
      ((∀ s, ch ≠ .replaceFull s) →
        ctx.oldBreaklines = st.br ∧ ∃ k, ctx.oldStr = st.text ++ List.replicate k 10) := by
  cases ch with
  | delete a b =>
    have hok' : (textDelete a b st).1 = .ok ctx := hok
    have h : textDelete a b st = (Except.ok ctx, (textDelete a b st).2) := by
      rw [← hok']
    obtain ⟨h1, h2, h3⟩ := textDelete_ok_ctx a b st ctx (textDelete a b st).2 h
    refine ⟨h1, ?_, fun _ => ⟨h2, h3⟩⟩
    rintro ⟨t, hs⟩
    cases hs
  | insert s p =>
    have hok' : (textInsert s p st).1 = .ok ctx := hok
    have h : textInsert s p st = (Except.ok ctx, (textInsert s p st).2) := by
      rw [← hok']
    obtain ⟨h1, h2, h3⟩ := textInsert_ok_ctx s p st ctx (textInsert s p st).2 h
    refine ⟨h1, ?_, fun _ => ⟨h2, h3⟩⟩
    rintro ⟨t, hs⟩
    cases hs
  | replace s a b =>
    have hok' : (textReplace s a b st).1 = .ok ctx := hok
    have h : textReplace s a b st = (Except.ok ctx, (textReplace s a b st).2) := by
      rw [← hok']
    obtain ⟨h1, h2, h3⟩ := textReplace_ok_ctx s a b st ctx (textReplace s a b st).2 h
    refine ⟨h1, ?_, fun _ => ⟨h2, h3⟩⟩
    rintro ⟨t, hs⟩
    cases hs
  | replaceFull s =>
    have hok' : (textReplaceFull s st).1 = .ok ctx := hok
    have hc := Except.ok.inj hok'
    refine ⟨?_, fun _ => ?_, ?_⟩
    · rw [← hc]
      rfl
    · rw [← hc]
      exact ⟨rfl, rfl⟩
    · intro habs
      exact absurd rfl (habs s)

/-- C3 counterexample: `replace_full` does not refresh `old_br_indexes`
(no `update_prep` call), so on a fresh document `"a\nb"` the observer's
`old_breaklines` is the empty vector rather than the pre-edit EOL index
`[0, 1]`. -/
theorem claimC3_counterexample :
    (textUpdate (.replaceFull [120]) (textNew [97, 10, 98])).1
        = .ok { change := .replaceFull [120], breaklines := [0],
                oldBreaklines := [], oldStr := [97, 10, 98] } ∧
      (textNew [97, 10, 98]).br = [0, 1] ∧
      ¬ (([] : List Nat) = [0, 1]) := by
  decide

/-- The context the insert of the C3 witness delivers. -/
def c3WitnessCtx : UpdateCtx :=
  { change := ChangeCtx.insert [] ⟨0, 0⟩ [120], breaklines := [0],
    oldBreaklines := [0], oldStr := [97] }

theorem claimC3_witness :
    c3WitnessCtx.breaklines = (textUpdate (.insert [120] ⟨0, 0⟩) (textNew [97])).2.br ∧
      c3WitnessCtx.oldBreaklines = (textNew [97]).br ∧
      ∃ k, c3WitnessCtx.oldStr = (textNew [97]).text ++ List.replicate k 10 := by
  have h := claimC3_theorem (textNew [97]) (.insert [120] ⟨0, 0⟩) c3WitnessCtx (by decide)
  have h3 := h.2.2 (fun t hs => Change.noConfusion hs)
  exact ⟨h.1, h3.1, h3.2⟩

end Texter
